import Mathlib

/-!
Verification of the candle-history pagination / exchange-fallback core of
the `eth15m-monitor` repository.

The repository is a family of near-duplicate Node scripts.  The parts of
them that the claims talk about are embedded here as pure Lean functions:

* `export_eth_15m_multi.mjs` — the multi-exchange exporter
  (`dedupeSort`, `ensureQuality`, `fetchJsonRetry`, the per-exchange
  fetch loops, `writeCSV`, `main`);
* `export_okx_1y.mjs` — three concatenated OKX exporter variants
  (variant 1: `collectAll` with a `Map`-based merge; variant 2: a
  `seen : Set` based merge with a `confirm` filter and a
  `while (page < MAX_PAGES)` loop; variant 3: `getJson` that returns
  `[]` after the retry budget, and a loop that retreats a stalled
  cursor by one minute and keeps going);
* `export_okx_15m_to_csv.js` — OKX exporters, one of which
  (`fetchViaMirror`) also returns `[]` after its retry budget;
* `src/unnamed/part_009` — an OKX exporter variant whose CSV write is
  atomic (temporary file, then rename).

Timestamps are modelled as `Int` (milliseconds).  JavaScript `NaN`
timestamps (and the `Number.isFinite` guards of the scripts) are outside
the model: every modelled row carries a finite integer timestamp, so the
`Number.isFinite` checks of the source are identically true here.
Price/volume cells of raw OKX rows are kept as the strings the exchange
returns; parsed rows carry integer fields (the claims never compute on
prices).  Error `message` strings are modelled by inductive error kinds.
-/

namespace Eth15m

/-- Constants of `export_eth_15m_multi.mjs` (lines 14–26). -/
def INTERVAL_MS : Int := 15 * 60 * 1000

/-- `ONE_YEAR_MS = 365 * 24 * 60 * 60 * 1000` (line 16). -/
def ONE_YEAR_MS : Int := 365 * 24 * 60 * 60 * 1000

/-- `TARGET_ROWS = Math.floor(ONE_YEAR_MS / INTERVAL_MS)` (line 20): the
expected bar count of the one-year window. -/
def TARGET_ROWS : Nat := (ONE_YEAR_MS / INTERVAL_MS).toNat

/-- `HARD_MIN_ROWS = 32000` (line 21): the hard row-count acceptance
threshold. -/
def HARD_MIN_ROWS : Nat := 32000

/-- `COVER_MARGIN_MS = 2 * INTERVAL_MS` (line 22): the coverage tolerance,
two bar-widths. -/
def COVER_MARGIN_MS : Int := 2 * INTERVAL_MS

/-- `BATCH_LIMIT = 1000` (line 23). -/
def BATCH_LIMIT : Int := 1000

/-- `RETRIES = 2` (line 25): per-batch retry count of the multi-exchange
script. -/
def RETRIES : Nat := 2

/-- `EMPTY_STREAK_LIMIT = 5` (line 26). -/
def EMPTY_STREAK_LIMIT : Nat := 5

/-- A parsed candle row of `export_eth_15m_multi.mjs`
(`{ ts, open, high, low, close, vol }`, e.g. line 158).  `open` is a Lean
keyword, hence the field name `open_`. -/
structure Row where
  ts : Int
  open_ : Int
  high : Int
  low : Int
  close : Int
  vol : Int
deriving DecidableEq, Repr

/-- The comparator `asc = (a, b) => a.ts - b.ts` (line 41), as the boolean
order used by the model's sort. -/
def ascLe (a b : Row) : Bool := a.ts ≤ b.ts

/-- The skip/keep loop of `dedupeSort` (lines 90–97): walk the sorted rows
keeping a row only when its timestamp strictly exceeds the previous kept
one.  `prev` starts at `-Infinity`, modelled by `none`. -/
def dedupeGo : Option Int → List Row → List Row
  | _, [] => []
  | none, r :: rest => r :: dedupeGo (some r.ts) rest
  | some p, r :: rest =>
    if r.ts ≤ p then dedupeGo (some p) rest
    else r :: dedupeGo (some r.ts) rest

/-- `dedupeSort` of `export_eth_15m_multi.mjs` (lines 88–99): sort by
timestamp ascending, then drop every row whose timestamp does not strictly
exceed the previously kept one. -/
def dedupeSort (rows : List Row) : List Row :=
  dedupeGo none (rows.mergeSort ascLe)

theorem dedupeGo_mem_gt :
    ∀ (l : List Row) (p : Int), ∀ x ∈ dedupeGo (some p) l, p < x.ts := by
  intro l
  induction l with
  | nil => intro p x hx; simp [dedupeGo] at hx
  | cons r rest ih =>
    intro p x hx
    by_cases h : r.ts ≤ p
    · rw [dedupeGo, if_pos h] at hx
      exact ih p x hx
    · rw [dedupeGo, if_neg h] at hx
      rcases List.mem_cons.mp hx with rfl | hmem
      · omega
      · have := ih r.ts x hmem
        omega

theorem dedupeGo_pairwise :
    ∀ (l : List Row) (o : Option Int),
      (dedupeGo o l).Pairwise (fun a b => a.ts < b.ts) := by
  intro l
  induction l with
  | nil => intro o; cases o <;> simp [dedupeGo]
  | cons r rest ih =>
    intro o
    cases o with
    | none =>
      rw [dedupeGo]
      exact List.Pairwise.cons (fun x hx => dedupeGo_mem_gt rest r.ts x hx)
        (ih (some r.ts))
    | some p =>
      by_cases h : r.ts ≤ p
      · rw [dedupeGo, if_pos h]; exact ih (some p)
      · rw [dedupeGo, if_neg h]
        exact List.Pairwise.cons (fun x hx => dedupeGo_mem_gt rest r.ts x hx)
          (ih (some r.ts))

/-- A raw OKX candle row, `[ts, o, h, l, c, vol, volCcy, volCcyQuote,
confirm]` (see `export_okx_1y.mjs` line 190).  Cells other than the
timestamp are the strings OKX returns; `Number(r[0])` is modelled by the
already-parsed integer field `ts`. -/
structure OkxRow where
  ts : Int
  o : String
  h : String
  l : String
  c : String
  vol : String
  volCcy : String
  volCcyQuote : String
  confirm : String
deriving DecidableEq, Repr

/-- One `map.set(ts, r)` step of the JS `Map` used by `collectAll`
(`export_okx_1y.mjs` lines 95–99): update the value in place when the key
is present, append otherwise (JS `Map` keeps first-insertion order). -/
def insertLww : List (Int × OkxRow) → Int → OkxRow → List (Int × OkxRow)
  | [], k, v => [(k, v)]
  | (k', v') :: rest, k, v =>
    if k' = k then (k', v) :: rest else (k', v') :: insertLww rest k v

/-- The `Map` built by `collectAll` from the accumulated `bucket`:
`for (const r of bucket) map.set(Number(r[0]), r)`. -/
def mapOfBucket (bucket : List OkxRow) : List (Int × OkxRow) :=
  bucket.foldl (fun m r => insertLww m r.ts r) []

/-- `map.get` on the association-list model of the JS `Map`. -/
def lookupTs : List (Int × OkxRow) → Int → Option OkxRow
  | [], _ => none
  | (k, v) :: rest, t => if k = t then some v else lookupTs rest t

/-- The last row of `l` whose timestamp is `t` (the row a
last-write-wins merge must keep). -/
def lastWith : List OkxRow → Int → Option OkxRow
  | [], _ => none
  | r :: rest, t =>
    match lastWith rest t with
    | some v => some v
    | none => if r.ts = t then some r else none

/-- The sort comparator `(a, b) => Number(a[0]) - Number(b[0])`
(`export_okx_1y.mjs` line 100). -/
def okxLe (a b : OkxRow) : Bool := a.ts ≤ b.ts

/-- The tail of `collectAll` (`export_okx_1y.mjs` lines 95–101): merge the
accumulated pages into the timestamp-keyed `Map`, take its values, sort
them ascending by timestamp and truncate below the window cutoff. -/
def collectAllFinish (cutoffMs : Int) (bucket : List OkxRow) : List OkxRow :=
  (((mapOfBucket bucket).map Prod.snd).mergeSort okxLe).filter
    (fun r => cutoffMs ≤ r.ts)

theorem lookupTs_insertLww :
    ∀ (m : List (Int × OkxRow)) (k : Int) (v : OkxRow) (t : Int),
      lookupTs (insertLww m k v) t = if k = t then some v else lookupTs m t := by
  intro m
  induction m with
  | nil => intro k v t; simp [insertLww, lookupTs]
  | cons p rest ih =>
    intro k v t
    obtain ⟨k', v'⟩ := p
    by_cases hk : k' = k
    · subst hk
      rw [insertLww, if_pos rfl]
      by_cases ht : k' = t
      · simp [lookupTs, ht]
      · simp [lookupTs, ht]
    · rw [insertLww, if_neg hk]
      by_cases ht : k' = t
      · subst ht
        have hkt : ¬ k = k' := fun h => hk h.symm
        simp [lookupTs, hkt]
      · simp [lookupTs, ht, ih]

theorem lookupTs_foldl :
    ∀ (l : List OkxRow) (m : List (Int × OkxRow)) (t : Int),
      lookupTs (l.foldl (fun m r => insertLww m r.ts r) m) t
        = match lastWith l t with
          | some v => some v
          | none => lookupTs m t := by
  intro l
  induction l with
  | nil => intro m t; simp [lastWith]
  | cons r rest ih =>
    intro m t
    rw [List.foldl_cons, ih, lastWith]
    cases hrest : lastWith rest t with
    | some v => simp
    | none =>
      simp only
      rw [lookupTs_insertLww]
      by_cases ht : r.ts = t <;> simp [ht]

/-- The merged `Map` is last-write-wins: looking a timestamp up yields
exactly the last row of the bucket carrying that timestamp. -/
theorem lookupTs_mapOfBucket (bucket : List OkxRow) (t : Int) :
    lookupTs (mapOfBucket bucket) t = lastWith bucket t := by
  rw [mapOfBucket, lookupTs_foldl]
  cases lastWith bucket t <;> simp [lookupTs]

theorem insertLww_fst_mem :
    ∀ (m : List (Int × OkxRow)) (k : Int) (v : OkxRow) (t : Int),
      t ∈ (insertLww m k v).map Prod.fst ↔ t = k ∨ t ∈ m.map Prod.fst := by
  intro m
  induction m with
  | nil => intro k v t; simp [insertLww]
  | cons p rest ih =>
    intro k v t
    obtain ⟨k', v'⟩ := p
    by_cases hk : k' = k
    · subst hk
      rw [insertLww, if_pos rfl]
      simp only [List.map_cons, List.mem_cons]
      constructor
      · rintro (rfl | hmem)
        · exact Or.inl rfl
        · exact Or.inr (Or.inr hmem)
      · rintro (rfl | rfl | hmem)
        · exact Or.inl rfl
        · exact Or.inl rfl
        · exact Or.inr hmem
    · rw [insertLww, if_neg hk]
      simp only [List.map_cons, List.mem_cons, ih]
      tauto

theorem insertLww_pairwise_ne :
    ∀ (m : List (Int × OkxRow)) (k : Int) (v : OkxRow),
      m.Pairwise (fun p q => p.1 ≠ q.1) →
      (insertLww m k v).Pairwise (fun p q => p.1 ≠ q.1) := by
  intro m
  induction m with
  | nil => intro k v _; simp [insertLww]
  | cons p rest ih =>
    intro k v hpw
    obtain ⟨k', v'⟩ := p
    rw [List.pairwise_cons] at hpw
    by_cases hk : k' = k
    · subst hk
      rw [insertLww, if_pos rfl, List.pairwise_cons]
      exact ⟨hpw.1, hpw.2⟩
    · rw [insertLww, if_neg hk, List.pairwise_cons]
      refine ⟨?_, ih k v hpw.2⟩
      intro q hq
      have hmem := (insertLww_fst_mem rest k v q.1).mp
        (List.mem_map.mpr ⟨q, hq, rfl⟩)
      rcases hmem with h1 | h2
      · rw [h1]; exact hk
      · obtain ⟨q', hq', hfst⟩ := List.mem_map.mp h2
        have := hpw.1 q' hq'
        rw [← hfst]
        exact this

theorem insertLww_snd_ts :
    ∀ (m : List (Int × OkxRow)) (k : Int) (v : OkxRow),
      (∀ p ∈ m, (p : Int × OkxRow).2.ts = p.1) → v.ts = k →
      ∀ p ∈ insertLww m k v, (p : Int × OkxRow).2.ts = p.1 := by
  intro m
  induction m with
  | nil =>
    intro k v _ hv p hp
    simp [insertLww] at hp
    rw [hp]
    exact hv
  | cons q rest ih =>
    intro k v hm hv p hp
    obtain ⟨k', v'⟩ := q
    by_cases hk : k' = k
    · subst hk
      rw [insertLww, if_pos rfl] at hp
      rcases List.mem_cons.mp hp with rfl | hmem
      · exact hv
      · exact hm p (List.mem_cons_of_mem _ hmem)
    · rw [insertLww, if_neg hk] at hp
      rcases List.mem_cons.mp hp with rfl | hmem
      · exact hm _ (List.mem_cons_self _ _)
      · exact ih k v (fun q hq => hm q (List.mem_cons_of_mem _ hq)) hv p hmem

theorem mapOfBucket_props (bucket : List OkxRow) :
    (mapOfBucket bucket).Pairwise (fun p q => p.1 ≠ q.1)
    ∧ (∀ p ∈ mapOfBucket bucket, (p : Int × OkxRow).2.ts = p.1)
    ∧ (∀ t : Int, t ∈ (mapOfBucket bucket).map Prod.fst
        ↔ ∃ r ∈ bucket, OkxRow.ts r = t) := by
  rw [mapOfBucket]
  suffices h : ∀ (l : List OkxRow) (m : List (Int × OkxRow)),
      m.Pairwise (fun p q => p.1 ≠ q.1) →
      (∀ p ∈ m, (p : Int × OkxRow).2.ts = p.1) →
      (l.foldl (fun m r => insertLww m r.ts r) m).Pairwise (fun p q => p.1 ≠ q.1)
      ∧ (∀ p ∈ l.foldl (fun m r => insertLww m r.ts r) m,
          (p : Int × OkxRow).2.ts = p.1)
      ∧ (∀ t : Int, t ∈ (l.foldl (fun m r => insertLww m r.ts r) m).map Prod.fst
          ↔ (∃ r ∈ l, OkxRow.ts r = t) ∨ t ∈ m.map Prod.fst) by
    obtain ⟨h1, h2, h3⟩ := h bucket [] (by simp) (by simp)
    refine ⟨h1, h2, fun t => ?_⟩
    rw [h3]
    simp
  intro l
  induction l with
  | nil => intro m h1 h2; exact ⟨h1, h2, by simp⟩
  | cons r rest ih =>
    intro m h1 h2
    rw [List.foldl_cons]
    obtain ⟨g1, g2, g3⟩ := ih (insertLww m r.ts r)
      (insertLww_pairwise_ne m r.ts r h1)
      (insertLww_snd_ts m r.ts r h2 rfl)
    refine ⟨g1, g2, fun t => ?_⟩
    rw [g3, insertLww_fst_mem]
    constructor
    · rintro (⟨x, hx, rfl⟩ | rfl | hmem)
      · exact Or.inl ⟨x, List.mem_cons_of_mem _ hx, rfl⟩
      · exact Or.inl ⟨r, List.mem_cons_self _ _, rfl⟩
      · exact Or.inr hmem
    · rintro (⟨x, hx, rfl⟩ | hmem)
      · rcases List.mem_cons.mp hx with rfl | hx'
        · exact Or.inr (Or.inl rfl)
        · exact Or.inl ⟨x, hx', rfl⟩
      · exact Or.inr (Or.inr hmem)

/-- The merged row count equals the number of distinct timestamps of the
bucket. -/
theorem mapOfBucket_length (bucket : List OkxRow) :
    (mapOfBucket bucket).length = ((bucket.map OkxRow.ts).dedup).length := by
  obtain ⟨h1, _, h3⟩ := mapOfBucket_props bucket
  have hnodup : ((mapOfBucket bucket).map Prod.fst).Nodup :=
    List.pairwise_map.mpr h1
  have hdnodup : ((bucket.map OkxRow.ts).dedup).Nodup := List.nodup_dedup _
  have hperm : List.Perm ((mapOfBucket bucket).map Prod.fst)
      ((bucket.map OkxRow.ts).dedup) := by
    rw [List.perm_ext_iff_of_nodup hnodup hdnodup]
    intro t
    rw [h3 t, List.mem_dedup, List.mem_map]
  calc (mapOfBucket bucket).length
      = ((mapOfBucket bucket).map Prod.fst).length := (List.length_map _ _).symm
    _ = ((bucket.map OkxRow.ts).dedup).length := hperm.length_eq

/-- The values of the merged `Map` carry pairwise distinct timestamps. -/
theorem mapOfBucket_values_pairwise_ne (bucket : List OkxRow) :
    ((mapOfBucket bucket).map Prod.snd).Pairwise
      (fun a b => OkxRow.ts a ≠ OkxRow.ts b) := by
  obtain ⟨h1, h2, _⟩ := mapOfBucket_props bucket
  rw [List.pairwise_map]
  refine h1.imp_of_mem ?_
  intro p q hp hq hne
  rw [h2 p hp, h2 q hq]
  exact hne

/-- The rows `collectAll` hands to the CSV writer have strictly increasing
timestamps: the sort makes them ascending, and the `Map` keys make them
pairwise distinct. -/
theorem collectAllFinish_pairwise_lt (cutoffMs : Int) (bucket : List OkxRow) :
    (collectAllFinish cutoffMs bucket).Pairwise
      (fun a b => OkxRow.ts a < OkxRow.ts b) := by
  rw [collectAllFinish]
  apply List.Pairwise.filter
  have hsorted : (((mapOfBucket bucket).map Prod.snd).mergeSort okxLe).Pairwise
      (fun a b => okxLe a b) := by
    apply List.sorted_mergeSort
    · intro a b c hab hbc
      simp only [okxLe, decide_eq_true_eq] at *
      omega
    · intro a b
      simp only [okxLe, Bool.or_eq_true, decide_eq_true_eq]
      omega
  have hne : (((mapOfBucket bucket).map Prod.snd).mergeSort okxLe).Pairwise
      (fun a b => OkxRow.ts a ≠ OkxRow.ts b) := by
    have hperm := List.mergeSort_perm ((mapOfBucket bucket).map Prod.snd) okxLe
    exact (hperm.pairwise_iff (fun h => Ne.symm h)).mpr
      (mapOfBucket_values_pairwise_ne bucket)
  refine (hsorted.and hne).imp ?_
  intro a b hab
  have h1 : a.ts ≤ b.ts := by
    have := hab.1
    simpa [okxLe] using this
  have h2 : a.ts ≠ b.ts := hab.2
  omega

/-- Membership characterization of the `collectAll` output: a timestamp
appears in the final rows exactly when some bucket row carries it and it is
not older than the window cutoff — there is no upper-boundary filter. -/
theorem collectAllFinish_mem_iff (cutoffMs : Int) (bucket : List OkxRow) (t : Int) :
    (∃ r ∈ collectAllFinish cutoffMs bucket, OkxRow.ts r = t)
      ↔ (∃ r ∈ bucket, OkxRow.ts r = t) ∧ cutoffMs ≤ t := by
  obtain ⟨_, h2, h3⟩ := mapOfBucket_props bucket
  rw [collectAllFinish]
  constructor
  · rintro ⟨r, hr, rfl⟩
    rw [List.mem_filter] at hr
    obtain ⟨hmem, hcut⟩ := hr
    rw [List.mem_mergeSort] at hmem
    obtain ⟨p, hp, rfl⟩ := List.mem_map.mp hmem
    refine ⟨?_, by simpa using hcut⟩
    rw [← h3]
    rw [h2 p hp]
    exact List.mem_map.mpr ⟨p, hp, rfl⟩
  · rintro ⟨⟨r, hr, rfl⟩, hcut⟩
    have hkey : r.ts ∈ (mapOfBucket bucket).map Prod.fst :=
      (h3 r.ts).mpr ⟨r, hr, rfl⟩
    obtain ⟨p, hp, hfst⟩ := List.mem_map.mp hkey
    refine ⟨p.2, ?_, by rw [h2 p hp, hfst]⟩
    rw [List.mem_filter]
    constructor
    · rw [List.mem_mergeSort]
      exact List.mem_map.mpr ⟨p, hp, rfl⟩
    · simp only [decide_eq_true_eq]
      rw [h2 p hp, hfst]
      exact hcut

/-- C1: for every row set that reaches a CSV writer — the output of
`dedupeSort` in `export_eth_15m_multi.mjs` and the output of `collectAll`
in `export_okx_1y.mjs` — the series has strictly increasing timestamps:
every pair of rows in list order, in particular every adjacent pair,
satisfies `row[i].ts < row[j].ts`. -/
theorem C1_pager_output_strictly_increasing :
    (∀ rows : List Row,
      (dedupeSort rows).Pairwise (fun a b => Row.ts a < Row.ts b))
    ∧ (∀ (cutoffMs : Int) (bucket : List OkxRow),
      (collectAllFinish cutoffMs bucket).Pairwise
        (fun a b => OkxRow.ts a < OkxRow.ts b)) :=
  ⟨fun rows => dedupeGo_pairwise (rows.mergeSort ascLe) none,
   fun cutoffMs bucket => collectAllFinish_pairwise_lt cutoffMs bucket⟩

/-- Error kinds thrown by `ensureQuality` (`export_eth_15m_multi.mjs`
lines 111–128): `TOO_FEW_ROWS`, `COVERAGE_FAIL: invalid ts range`,
`COVERAGE_FAIL` at the window boundaries. -/
inductive QErr where
  | tooFewRows
  | coverageInvalid
  | coverageFail
deriving DecidableEq, Repr

/-- The min/max scan of `ensureQuality` (lines 116–121): `minTs` starts at
`Infinity` and `maxTs` at `-Infinity`, modelled by the accumulator `none`;
each row lowers `minTs` and raises `maxTs`. -/
def minMaxGo : Option (Int × Int) → List Row → Option (Int × Int)
  | acc, [] => acc
  | none, r :: rest => minMaxGo (some (r.ts, r.ts)) rest
  | some (mn, mx), r :: rest => minMaxGo (some (min mn r.ts, max mx r.ts)) rest

def minMaxTs (rows : List Row) : Option (Int × Int) := minMaxGo none rows

/-- `ensureQuality` (`export_eth_15m_multi.mjs` lines 111–128): reject when
fewer than `HARD_MIN_ROWS` rows, when no valid timestamp exists, or when
the earliest/latest timestamps miss the window boundaries by more than
`COVER_MARGIN_MS` (two bar-widths); otherwise accept. -/
def ensureQuality (startTs endTs : Int) (rows : List Row) : Except QErr Unit :=
  if rows.length < HARD_MIN_ROWS then .error .tooFewRows
  else
    match minMaxTs rows with
    | none => .error .coverageInvalid
    | some (mn, mx) =>
      if mn > startTs + COVER_MARGIN_MS ∨ mx < endTs - COVER_MARGIN_MS then
        .error .coverageFail
      else .ok ()

theorem minMaxGo_spec :
    ∀ (l : List Row) (mn mx : Int),
      ∃ mn' mx', minMaxGo (some (mn, mx)) l = some (mn', mx')
        ∧ mn' ≤ mn ∧ mx ≤ mx'
        ∧ (∀ r ∈ l, mn' ≤ Row.ts r ∧ Row.ts r ≤ mx')
        ∧ (mn' = mn ∨ ∃ r ∈ l, Row.ts r = mn')
        ∧ (mx' = mx ∨ ∃ r ∈ l, Row.ts r = mx') := by
  intro l
  induction l with
  | nil =>
    intro mn mx
    exact ⟨mn, mx, rfl, le_refl _, le_refl _, by simp, Or.inl rfl, Or.inl rfl⟩
  | cons r rest ih =>
    intro mn mx
    obtain ⟨mn', mx', heq, hmn, hmx, hall, hattmn, hattmx⟩ :=
      ih (min mn r.ts) (max mx r.ts)
    refine ⟨mn', mx', heq, le_trans hmn (min_le_left _ _),
      le_trans (le_max_left _ _) hmx, ?_, ?_, ?_⟩
    · intro x hx
      rcases List.mem_cons.mp hx with rfl | hx'
      · exact ⟨le_trans hmn (min_le_right _ _), le_trans (le_max_right _ _) hmx⟩
      · exact hall x hx'
    · rcases hattmn with h | ⟨x, hx, hxe⟩
      · rcases le_or_lt mn r.ts with hc | hc
        · left; rw [h]; exact min_eq_left hc
        · right
          exact ⟨r, List.mem_cons_self _ _, by rw [h]; exact (min_eq_right hc.le).symm⟩
      · exact Or.inr ⟨x, List.mem_cons_of_mem _ hx, hxe⟩
    · rcases hattmx with h | ⟨x, hx, hxe⟩
      · rcases le_or_lt r.ts mx with hc | hc
        · left; rw [h]; exact max_eq_left hc
        · right
          exact ⟨r, List.mem_cons_self _ _, by rw [h]; exact (max_eq_right hc.le).symm⟩
      · exact Or.inr ⟨x, List.mem_cons_of_mem _ hx, hxe⟩

theorem minMaxTs_spec (rows : List Row) (hne : rows ≠ []) :
    ∃ mn mx, minMaxTs rows = some (mn, mx)
      ∧ (∀ r ∈ rows, mn ≤ Row.ts r ∧ Row.ts r ≤ mx)
      ∧ (∃ r ∈ rows, Row.ts r = mn)
      ∧ (∃ r ∈ rows, Row.ts r = mx) := by
  match rows, hne with
  | r :: rest, _ =>
    obtain ⟨mn', mx', heq, hmn, hmx, hall, hattmn, hattmx⟩ :=
      minMaxGo_spec rest r.ts r.ts
    refine ⟨mn', mx', heq, ?_, ?_, ?_⟩
    · intro x hx
      rcases List.mem_cons.mp hx with rfl | hx'
      · exact ⟨hmn, hmx⟩
      · exact hall x hx'
    · rcases hattmn with h | ⟨x, hx, hxe⟩
      · exact ⟨r, List.mem_cons_self _ _, h.symm⟩
      · exact ⟨x, List.mem_cons_of_mem _ hx, hxe⟩
    · rcases hattmx with h | ⟨x, hx, hxe⟩
      · exact ⟨r, List.mem_cons_self _ _, h.symm⟩
      · exact ⟨x, List.mem_cons_of_mem _ hx, hxe⟩

/-- C3: the Quality Gate accepts a row set exactly when both checks pass:
at least `HARD_MIN_ROWS = 32000` rows (which is `floor(window / bar) = 35040`
scaled by a coverage ratio between 0.90 and 0.95, witnessed by the last two
conjuncts), some row no later than two bar-widths after the window start,
and some row no earlier than two bar-widths before the window end; in every
other case it raises an error for that source. -/
theorem C3_quality_gate_accept_iff :
    (∀ (startTs endTs : Int) (rows : List Row),
      ensureQuality startTs endTs rows = .ok ()
        ↔ HARD_MIN_ROWS ≤ rows.length
          ∧ (∃ r ∈ rows, Row.ts r ≤ startTs + COVER_MARGIN_MS)
          ∧ (∃ r ∈ rows, endTs - COVER_MARGIN_MS ≤ Row.ts r))
    ∧ TARGET_ROWS * 90 ≤ HARD_MIN_ROWS * 100
    ∧ HARD_MIN_ROWS * 100 ≤ TARGET_ROWS * 95 := by
  refine ⟨?_, by decide, by decide⟩
  intro startTs endTs rows
  constructor
  · intro hok
    rw [ensureQuality] at hok
    by_cases hlen : rows.length < HARD_MIN_ROWS
    · rw [if_pos hlen] at hok; exact absurd hok (by simp)
    · rw [if_neg hlen] at hok
      have hne : rows ≠ [] := by
        intro h
        rw [h] at hlen
        simp [HARD_MIN_ROWS] at hlen
      obtain ⟨mn, mx, heq, hall, ⟨rmn, hrmn, hrmne⟩, ⟨rmx, hrmx, hrmxe⟩⟩ :=
        minMaxTs_spec rows hne
      rw [heq] at hok
      dsimp only at hok
      by_cases hcov : mn > startTs + COVER_MARGIN_MS ∨ mx < endTs - COVER_MARGIN_MS
      · rw [if_pos hcov] at hok; exact absurd hok (by simp)
      · push_neg at hcov
        refine ⟨by omega, ⟨rmn, hrmn, by omega⟩, ⟨rmx, hrmx, by omega⟩⟩
  · rintro ⟨hlen, ⟨rlo, hrlo, hrloe⟩, ⟨rhi, hrhi, hrhie⟩⟩
    rw [ensureQuality, if_neg (by omega)]
    have hne : rows ≠ [] := by
      intro h
      rw [h] at hlen
      simp [HARD_MIN_ROWS] at hlen
    obtain ⟨mn, mx, heq, hall, _, _⟩ := minMaxTs_spec rows hne
    rw [heq]
    dsimp only
    have h1 := (hall rlo hrlo).1
    have h2 := (hall rhi hrhi).2
    rw [if_neg (by push_neg; omega)]

/-- The per-page row filter of the first `export_okx_15m_to_csv.js` IIFE
(lines 80–92): `if (ts < START_MS) continue; rows.push(...)` — rows older
than the window start are skipped, with no symmetric check against the
window end. -/
def iifeKeepPage (startMs : Int) : List OkxRow → List OkxRow
  | [] => []
  | d :: rest =>
    if d.ts < startMs then iifeKeepPage startMs rest
    else d :: iifeKeepPage startMs rest

theorem iifeKeepPage_mem :
    ∀ (startMs : Int) (data : List OkxRow) (d : OkxRow),
      d ∈ iifeKeepPage startMs data ↔ d ∈ data ∧ startMs ≤ d.ts := by
  intro startMs data
  induction data with
  | nil => intro d; simp [iifeKeepPage]
  | cons x rest ih =>
    intro d
    by_cases hx : x.ts < startMs
    · rw [iifeKeepPage, if_pos hx, ih]
      constructor
      · rintro ⟨hmem, hge⟩
        exact ⟨List.mem_cons_of_mem _ hmem, hge⟩
      · rintro ⟨hmem, hge⟩
        rcases List.mem_cons.mp hmem with rfl | hmem'
        · omega
        · exact ⟨hmem', hge⟩
    · rw [iifeKeepPage, if_neg hx]
      constructor
      · intro hmem
        rcases List.mem_cons.mp hmem with rfl | hmem'
        · exact ⟨List.mem_cons_self _ _, by omega⟩
        · obtain ⟨h1, h2⟩ := (ih d).mp hmem'
          exact ⟨List.mem_cons_of_mem _ h1, h2⟩
      · rintro ⟨hmem, hge⟩
        rcases List.mem_cons.mp hmem with rfl | hmem'
        · exact List.mem_cons_self _ _
        · exact List.mem_cons_of_mem _ ((ih d).mpr ⟨hmem', hge⟩)

/-- C10: the final row set is truncated at the lower window boundary only.
For the `collectAll` merge of `export_okx_1y.mjs` (and the line-identical
`collect` of `src/unnamed/part_009`), a timestamp survives into the output
exactly when some fetched row carries it and it is at least the cutoff —
there is no condition against the upper end of the window.  Likewise the
page filter of `export_okx_15m_to_csv.js` keeps a row exactly when its
timestamp is at least `START_MS`, with no upper bound. -/
theorem C10_lower_boundary_truncation_only :
    (∀ (cutoffMs : Int) (bucket : List OkxRow) (t : Int),
      (∃ r ∈ collectAllFinish cutoffMs bucket, OkxRow.ts r = t)
        ↔ (∃ r ∈ bucket, OkxRow.ts r = t) ∧ cutoffMs ≤ t)
    ∧ (∀ (startMs : Int) (data : List OkxRow) (d : OkxRow),
      d ∈ iifeKeepPage startMs data ↔ d ∈ data ∧ startMs ≤ OkxRow.ts d) :=
  ⟨collectAllFinish_mem_iff, iifeKeepPage_mem⟩

/-- The mutable state of the second `export_okx_1y.mjs` variant's merge
(lines 211–212): `const all = []; const seen = new Set()`. -/
structure Okx2St where
  seen : List Int
  all : List OkxRow
deriving DecidableEq, Repr

/-- The keep condition of that merge (lines 229–232): the row's `confirm`
flag must be `"1"` and its timestamp must not precede `sinceTs`. -/
def okx2Keep (sinceTs : Int) (c : OkxRow) : Bool :=
  c.confirm = "1" && sinceTs ≤ c.ts

/-- One body of the `for (const c of olderFirst)` loop of the second
variant (`export_okx_1y.mjs` lines 227–239): skip unconfirmed rows, skip
rows before `sinceTs`, and push a row only when its timestamp is not in
`seen` — first-write-wins deduplication via a `Set`. -/
def okx2Push (sinceTs : Int) (st : Okx2St) (c : OkxRow) : Okx2St :=
  if c.confirm ≠ "1" then st
  else if c.ts < sinceTs then st
  else if c.ts ∈ st.seen then st
  else ⟨c.ts :: st.seen, st.all ++ [c]⟩

/-- The accumulated `all` after processing the encounter stream (all pages,
each already reversed to oldest-first, in fetch order). -/
def okx2Collect (sinceTs : Int) (stream : List OkxRow) : List OkxRow :=
  (stream.foldl (okx2Push sinceTs) ⟨[], []⟩).all

/-- Recursive mirror of the rows `okx2Push` appends beyond an initial
`seen` set. -/
def okx2New (sinceTs : Int) (seen : List Int) : List OkxRow → List OkxRow
  | [] => []
  | c :: cs =>
    if c.confirm ≠ "1" then okx2New sinceTs seen cs
    else if c.ts < sinceTs then okx2New sinceTs seen cs
    else if c.ts ∈ seen then okx2New sinceTs seen cs
    else c :: okx2New sinceTs (c.ts :: seen) cs

theorem okx2_foldl_all (sinceTs : Int) :
    ∀ (l : List OkxRow) (seen : List Int) (all : List OkxRow),
      (l.foldl (okx2Push sinceTs) ⟨seen, all⟩).all
        = all ++ okx2New sinceTs seen l := by
  intro l
  induction l with
  | nil => intro seen all; simp [okx2New]
  | cons c cs ih =>
    intro seen all
    rw [List.foldl_cons, okx2New, okx2Push]
    dsimp only
    by_cases h1 : c.confirm ≠ "1"
    · rw [if_pos h1, if_pos h1]
      exact ih seen all
    · rw [if_neg h1, if_neg h1]
      by_cases h2 : c.ts < sinceTs
      · rw [if_pos h2, if_pos h2]
        exact ih seen all
      · rw [if_neg h2, if_neg h2]
        by_cases h3 : c.ts ∈ seen
        · rw [if_pos h3, if_pos h3]
          exact ih seen all
        · rw [if_neg h3, if_neg h3, ih (c.ts :: seen) (all ++ [c]),
            List.append_assoc]
          rfl

theorem okx2Collect_eq_new (sinceTs : Int) (stream : List OkxRow) :
    okx2Collect sinceTs stream = okx2New sinceTs [] stream := by
  rw [okx2Collect, okx2_foldl_all]
  simp

theorem okx2Keep_true {s : Int} {c : OkxRow} :
    okx2Keep s c = true ↔ c.confirm = "1" ∧ s ≤ c.ts := by
  simp [okx2Keep]

theorem okx2New_ts_not_seen (s : Int) :
    ∀ (l : List OkxRow) (seen : List Int),
      ∀ r ∈ okx2New s seen l, OkxRow.ts r ∉ seen := by
  intro l
  induction l with
  | nil => intro seen r hr; simp [okx2New] at hr
  | cons c cs ih =>
    intro seen r hr
    rw [okx2New] at hr
    by_cases h1 : c.confirm ≠ "1"
    · rw [if_pos h1] at hr; exact ih seen r hr
    · rw [if_neg h1] at hr
      by_cases h2 : c.ts < s
      · rw [if_pos h2] at hr; exact ih seen r hr
      · rw [if_neg h2] at hr
        by_cases h3 : c.ts ∈ seen
        · rw [if_pos h3] at hr; exact ih seen r hr
        · rw [if_neg h3] at hr
          rcases List.mem_cons.mp hr with rfl | hr'
          · exact h3
          · intro hmem
            exact ih (c.ts :: seen) r hr' (List.mem_cons_of_mem _ hmem)

theorem findConsPos {α : Type} (p : α → Bool) (a : α) (l : List α)
    (h : p a = true) : List.find? p (a :: l) = some a :=
  List.find?_cons_of_pos l h

theorem findConsNeg {α : Type} (p : α → Bool) (a : α) (l : List α)
    (h : ¬ p a = true) : List.find? p (a :: l) = List.find? p l :=
  List.find?_cons_of_neg l h

theorem okx2New_find (s : Int) :
    ∀ (l : List OkxRow) (seen : List Int) (t : Int), t ∉ seen →
      List.find? (fun r => decide (OkxRow.ts r = t)) (okx2New s seen l)
        = List.find? (fun r => decide (OkxRow.ts r = t))
            (l.filter (okx2Keep s)) := by
  intro l
  induction l with
  | nil => intro seen t _; simp [okx2New]
  | cons c cs ih =>
    intro seen t ht
    rw [okx2New]
    by_cases h1 : c.confirm ≠ "1"
    · have hk : ¬ (okx2Keep s c = true) := by
        rw [okx2Keep_true]; rintro ⟨hc, _⟩; exact h1 hc
      rw [if_pos h1, List.filter_cons_of_neg hk]
      exact ih seen t ht
    · rw [if_neg h1]
      have hc1 : c.confirm = "1" := not_not.mp h1
      by_cases h2 : c.ts < s
      · have hk : ¬ (okx2Keep s c = true) := by
          rw [okx2Keep_true]; rintro ⟨_, hle⟩; omega
        rw [if_pos h2, List.filter_cons_of_neg hk]
        exact ih seen t ht
      · have hk : okx2Keep s c = true := okx2Keep_true.mpr ⟨hc1, by omega⟩
        rw [if_neg h2, List.filter_cons_of_pos hk]
        by_cases h3 : c.ts ∈ seen
        · rw [if_pos h3]
          have hne : ¬ ((fun r => decide (OkxRow.ts r = t)) c = true) := by
            simp only [decide_eq_true_eq]
            intro h; rw [h] at h3; exact ht h3
          rw [findConsNeg (fun r => decide (OkxRow.ts r = t)) c
            (List.filter (okx2Keep s) cs) hne]
          exact ih seen t ht
        · rw [if_neg h3]
          by_cases h4 : c.ts = t
          · rw [findConsPos (fun r => decide (OkxRow.ts r = t)) c
              (okx2New s (c.ts :: seen) cs) (by simp [h4]),
              findConsPos (fun r => decide (OkxRow.ts r = t)) c
              (List.filter (okx2Keep s) cs) (by simp [h4])]
          · rw [findConsNeg (fun r => decide (OkxRow.ts r = t)) c
              (okx2New s (c.ts :: seen) cs) (by simp [h4]),
              findConsNeg (fun r => decide (OkxRow.ts r = t)) c
              (List.filter (okx2Keep s) cs) (by simp [h4])]
            refine ih (c.ts :: seen) t ?_
            intro hmem
            rcases List.mem_cons.mp hmem with h | h
            · exact h4 h.symm
            · exact ht h

theorem okx2New_pairwise_ne (s : Int) :
    ∀ (l : List OkxRow) (seen : List Int),
      (okx2New s seen l).Pairwise (fun a b => OkxRow.ts a ≠ OkxRow.ts b) := by
  intro l
  induction l with
  | nil => intro seen; simp [okx2New]
  | cons c cs ih =>
    intro seen
    rw [okx2New]
    by_cases h1 : c.confirm ≠ "1"
    · rw [if_pos h1]; exact ih seen
    · rw [if_neg h1]
      by_cases h2 : c.ts < s
      · rw [if_pos h2]; exact ih seen
      · rw [if_neg h2]
        by_cases h3 : c.ts ∈ seen
        · rw [if_pos h3]; exact ih seen
        · rw [if_neg h3]
          refine List.Pairwise.cons ?_ (ih (c.ts :: seen))
          intro x hx
          have := okx2New_ts_not_seen s cs (c.ts :: seen) x hx
          intro he
          exact this (by rw [← he]; exact List.mem_cons_self _ _)

theorem okx2Collect_ts_mem (s : Int) (stream : List OkxRow) (t : Int) :
    (∃ r ∈ okx2Collect s stream, OkxRow.ts r = t)
      ↔ ∃ r ∈ stream.filter (okx2Keep s), OkxRow.ts r = t := by
  have hfind := okx2New_find s stream [] t (by simp)
  rw [okx2Collect_eq_new]
  constructor
  · rintro ⟨r, hr, rfl⟩
    have : List.find? (fun x => decide (OkxRow.ts x = r.ts))
        (okx2New s [] stream) ≠ none := by
      intro hnone
      rw [List.find?_eq_none] at hnone
      exact hnone r hr (by simp)
    rw [hfind] at this
    cases hf : List.find? (fun x => decide (OkxRow.ts x = r.ts))
        (stream.filter (okx2Keep s)) with
    | none => exact absurd hf this
    | some x =>
      have hmem := List.mem_of_find?_eq_some hf
      have hpx := List.find?_some hf
      simp only [decide_eq_true_eq] at hpx
      exact ⟨x, hmem, hpx⟩
  · rintro ⟨r, hr, rfl⟩
    have : List.find? (fun x => decide (OkxRow.ts x = r.ts))
        (stream.filter (okx2Keep s)) ≠ none := by
      intro hnone
      rw [List.find?_eq_none] at hnone
      exact hnone r hr (by simp)
    rw [← hfind] at this
    cases hf : List.find? (fun x => decide (OkxRow.ts x = r.ts))
        (okx2New s [] stream) with
    | none => exact absurd hf this
    | some x =>
      have hmem := List.mem_of_find?_eq_some hf
      have hpx := List.find?_some hf
      simp only [decide_eq_true_eq] at hpx
      exact ⟨x, hmem, hpx⟩

/-- The `seen : Set` merge keeps exactly one row per distinct timestamp of
the filtered stream. -/
theorem okx2Collect_length (s : Int) (stream : List OkxRow) :
    (okx2Collect s stream).length
      = (((stream.filter (okx2Keep s)).map OkxRow.ts).dedup).length := by
  have hnodup : ((okx2Collect s stream).map OkxRow.ts).Nodup := by
    rw [okx2Collect_eq_new]
    exact List.pairwise_map.mpr (okx2New_pairwise_ne s stream [])
  have hdnodup : (((stream.filter (okx2Keep s)).map OkxRow.ts).dedup).Nodup :=
    List.nodup_dedup _
  have hperm : List.Perm ((okx2Collect s stream).map OkxRow.ts)
      (((stream.filter (okx2Keep s)).map OkxRow.ts).dedup) := by
    rw [List.perm_ext_iff_of_nodup hnodup hdnodup]
    intro t
    rw [List.mem_dedup, List.mem_map, List.mem_map]
    exact okx2Collect_ts_mem s stream t
  calc (okx2Collect s stream).length
      = ((okx2Collect s stream).map OkxRow.ts).length := (List.length_map _ _).symm
    _ = _ := hperm.length_eq

/-- Two confirmed rows sharing timestamp 0 but differing in the close
price, as produced by two overlapping pages. -/
def rowA : OkxRow := ⟨0, "3000", "3001", "2999", "3000.5", "10", "0", "0", "1"⟩

def rowB : OkxRow := ⟨0, "3000", "3001", "2999", "3000.7", "10", "0", "0", "1"⟩

/-- C2 counterexample: the `seen : Set` merge of the second
`export_okx_1y.mjs` variant is first-write-wins, not last-write-wins.
Feeding it the stream `[rowA, rowB]` — two kept rows with the same
timestamp, `rowB` encountered last — yields `[rowA]`, while the row last
encountered for that timestamp (as `lastWith` computes) is `rowB ≠ rowA`. -/
theorem C2_counterexample_seen_set_keeps_first :
    okx2Collect 0 [rowA, rowB] = [rowA]
    ∧ lastWith [rowA, rowB] 0 = some rowB
    ∧ rowA ≠ rowB := by decide

/-- C2 amended: the `Map`-based merge of `collectAll` is last-write-wins —
looking up any timestamp in the merged `Map` yields the last row of the
paged stream carrying it, and the merged row count equals the number of
distinct timestamps across all pages.  The `seen : Set` merge of the second
variant instead keeps, for each timestamp, the first row encountered among
the rows passing its `confirm`/`sinceTs` filter, again with one row per
distinct filtered timestamp. -/
theorem C2_amended_merge_characterization :
    (∀ (pages : List (List OkxRow)) (t : Int),
      lookupTs (mapOfBucket pages.flatten) t = lastWith pages.flatten t)
    ∧ (∀ pages : List (List OkxRow),
      (mapOfBucket pages.flatten).length
        = ((pages.flatten.map OkxRow.ts).dedup).length)
    ∧ (∀ (sinceTs : Int) (pages : List (List OkxRow)) (t : Int),
      List.find? (fun r => decide (OkxRow.ts r = t))
          (okx2Collect sinceTs pages.flatten)
        = List.find? (fun r => decide (OkxRow.ts r = t))
            (pages.flatten.filter (okx2Keep sinceTs)))
    ∧ (∀ (sinceTs : Int) (pages : List (List OkxRow)),
      (okx2Collect sinceTs pages.flatten).length
        = (((pages.flatten.filter (okx2Keep sinceTs)).map OkxRow.ts).dedup).length) :=
  ⟨fun pages t => lookupTs_mapOfBucket pages.flatten t,
   fun pages => mapOfBucket_length pages.flatten,
   fun s pages t => by
     rw [okx2Collect_eq_new]
     exact okx2New_find s pages.flatten [] t (by simp),
   fun s pages => okx2Collect_length s pages.flatten⟩

/-- Failure kinds of a single page fetch attempt (`fetchText`/`fetchJson`,
`export_eth_15m_multi.mjs` lines 43–59): non-2xx status, an HTML body, or
a JSON parse failure. -/
inductive NetErr where
  | httpStatus
  | htmlBody
  | jsonParse
deriving DecidableEq, Repr

/-- The retry loop of `fetchJsonRetry`/`fetchTextRetry`
(`export_eth_15m_multi.mjs` lines 62–85), indexed by the current attempt
`r` and the remaining budget: on success return the value, on failure
remember the error; once the budget is exhausted (`r === maxRetries`) the
last error is thrown. -/
def retryFrom {ε α : Type} (attempt : Nat → Except ε α) (r : Nat) :
    Nat → Except ε α
  | 0 => attempt r
  | k + 1 =>
    match attempt r with
    | .ok v => .ok v
    | .error _ => retryFrom attempt (r + 1) k

/-- `fetchJsonRetry(url, maxRetries)` as a function of the outcome of each
attempt. -/
def fetchJsonRetry {ε α : Type} (attempt : Nat → Except ε α)
    (maxRetries : Nat) : Except ε α :=
  retryFrom attempt 0 maxRetries

/-- `RETRY = 3` of the third `export_okx_1y.mjs` variant (line 281). -/
def RETRY3 : Nat := 3

/-- The attempt loop of `getJson` in the third `export_okx_1y.mjs` variant
(lines 296–314): try each attempt (route switching folded into the attempt
outcome); after the budget is exhausted `return []` — the failure is
converted into an empty page.  `fetchViaMirror` of
`export_okx_15m_to_csv.js` (lines 184–204) and `getPage` of the first
variant (line 55) have the same shape. -/
def okx3GetJsonGo {ε : Type} (attempt : Nat → Except ε (List OkxRow)) :
    Nat → Nat → List OkxRow
  | _, 0 => []
  | a, k + 1 =>
    match attempt a with
    | .ok d => d
    | .error _ => okx3GetJsonGo attempt (a + 1) k

/-- `getJson` of the third `export_okx_1y.mjs` variant, attempts numbered
`1..RETRY`. -/
def okx3GetJson {ε : Type} (attempt : Nat → Except ε (List OkxRow)) :
    List OkxRow :=
  okx3GetJsonGo attempt 1 RETRY3

theorem retryFrom_all_fail {ε α : Type} (attempt : Nat → Except ε α) :
    ∀ (k r : Nat), (∀ i, r ≤ i → i ≤ r + k → ∃ e, attempt i = .error e) →
      retryFrom attempt r k = attempt (r + k) := by
  intro k
  induction k with
  | zero => intro r _; simp [retryFrom]
  | succ k ih =>
    intro r hall
    rw [retryFrom]
    obtain ⟨e, he⟩ := hall r (le_refl r) (by omega)
    rw [he]
    have harec := ih (r + 1) (fun i h1 h2 => hall i (by omega) (by omega))
    have harith : r + 1 + k = r + (k + 1) := by omega
    rw [harec, harith]

theorem okx3GetJsonGo_all_fail {ε : Type}
    (attempt : Nat → Except ε (List OkxRow)) :
    ∀ (k a : Nat), (∀ i, ∃ e, attempt i = .error e) →
      okx3GetJsonGo attempt a k = [] := by
  intro k
  induction k with
  | zero => intro a _; rfl
  | succ k ih =>
    intro a hall
    rw [okx3GetJsonGo]
    obtain ⟨e, he⟩ := hall a
    rw [he]
    exact ih (a + 1) hall

/-- C7 counterexample: `getJson` of the third `export_okx_1y.mjs` variant,
when every attempt fails (here: an HTML block page each time), does not
propagate an error — it returns the empty page `[]`, a success value the
caller treats as "no more data". -/
theorem C7_counterexample_getJson_empty_success :
    okx3GetJson (fun _ => Except.error NetErr.htmlBody) = ([] : List OkxRow) :=
  rfl

/-- C7 amended: `fetchJsonRetry`/`fetchTextRetry` of
`export_eth_15m_multi.mjs` do rethrow the last attempt's error once the
retry budget is exhausted.  The `getJson`/`getPage`/`fetchViaMirror`
helpers of the OKX variants instead return the empty page `[]` after the
budget. -/
theorem C7_amended_retry_exhaustion (maxRetries : Nat)
    (attempt : Nat → Except NetErr (List OkxRow))
    (hfail : ∀ i, ∃ e, attempt i = .error e) :
    fetchJsonRetry attempt maxRetries = attempt maxRetries
    ∧ (∃ e, fetchJsonRetry attempt maxRetries = Except.error e)
    ∧ okx3GetJson attempt = [] := by
  have h1 : fetchJsonRetry attempt maxRetries = attempt maxRetries := by
    rw [fetchJsonRetry, retryFrom_all_fail attempt maxRetries 0
      (fun i _ _ => hfail i), Nat.zero_add]
  refine ⟨h1, ?_, okx3GetJsonGo_all_fail attempt RETRY3 1 hfail⟩
  obtain ⟨e, he⟩ := hfail maxRetries
  exact ⟨e, by rw [h1, he]⟩

/-- Witness for C7 amended at a concrete always-failing attempt
function and budget 2. -/
theorem C7_amended_retry_exhaustion_witness :
    fetchJsonRetry (fun _ => Except.error NetErr.httpStatus) 2
        = (Except.error NetErr.httpStatus : Except NetErr (List OkxRow))
    ∧ (∃ e, fetchJsonRetry (fun _ => Except.error NetErr.httpStatus) 2
        = (Except.error e : Except NetErr (List OkxRow)))
    ∧ okx3GetJson (fun _ => Except.error NetErr.httpStatus) = ([] : List OkxRow) :=
  C7_amended_retry_exhaustion 2 (fun _ => Except.error NetErr.httpStatus)
    (fun _ => ⟨NetErr.httpStatus, rfl⟩)

/-- A raw Binance kline row `[openTime, o, h, l, c, vol, ...]`
(`export_eth_15m_multi.mjs` lines 156–159); the numeric cells are the
strings Binance returns. -/
structure BinRaw where
  openTime : Int
  o : String
  h : String
  l : String
  c : String
  vol : String
deriving DecidableEq, Repr

/-- The Binance page-parse loop (`export_eth_15m_multi.mjs` lines 156–159):
`rows.push({ts: Number(c[0]), open:+c[1], ...})` for every row of the page,
with no filtering; `num` models JavaScript string-to-number coercion.  The
Bybit/KuCoin/Gate loops (lines 200–203, 245–248, 291–294) have the same
shape. -/
def binanceParseRows (num : String → Int) (data : List BinRaw) : List Row :=
  data.map (fun r => ⟨r.openTime, num r.o, num r.h, num r.l, num r.c, num r.vol⟩)

theorem okx2New_keep (s : Int) :
    ∀ (l : List OkxRow) (seen : List Int),
      ∀ r ∈ okx2New s seen l, okx2Keep s r = true := by
  intro l
  induction l with
  | nil => intro seen r hr; simp [okx2New] at hr
  | cons c cs ih =>
    intro seen r hr
    rw [okx2New] at hr
    by_cases h1 : c.confirm ≠ "1"
    · rw [if_pos h1] at hr; exact ih seen r hr
    · rw [if_neg h1] at hr
      by_cases h2 : c.ts < s
      · rw [if_pos h2] at hr; exact ih seen r hr
      · rw [if_neg h2] at hr
        by_cases h3 : c.ts ∈ seen
        · rw [if_pos h3] at hr; exact ih seen r hr
        · rw [if_neg h3] at hr
          rcases List.mem_cons.mp hr with rfl | hr'
          · exact okx2Keep_true.mpr ⟨not_not.mp h1, by omega⟩
          · exact ih (c.ts :: seen) r hr'

/-- An unconfirmed OKX row (`confirm = "0"`). -/
def rowU : OkxRow := ⟨900000, "3000", "3001", "2999", "3000.5", "10", "0", "0", "0"⟩

/-- C8 counterexample: the `collectAll` merge of the first
`export_okx_1y.mjs` variant applies no `confirm` filter — feeding it one
unconfirmed OKX page row puts that row into the merged output. -/
theorem C8_counterexample_unconfirmed_row_in_output :
    collectAllFinish 0 [rowU] = [rowU] ∧ OkxRow.confirm rowU ≠ "1" := by
  constructor
  · rw [collectAllFinish]
    have h1 : mapOfBucket [rowU] = [(rowU.ts, rowU)] := rfl
    rw [h1]
    simp [rowU]
  · decide

/-- C8 amended: the `seen : Set` OKX variants do drop every row whose
`confirm` flag is not `"1"` — every merged row has `confirm = "1"` —
while the `Map`-based `collectAll` variant and the `okx_15m` scripts apply
no such filter (counterexample), and the Binance-style parse loops of the
other exchanges convert every page row, filtering nothing. -/
theorem C8_amended_confirm_filter :
    (∀ (sinceTs : Int) (stream : List OkxRow),
      ∀ r ∈ okx2Collect sinceTs stream, OkxRow.confirm r = "1")
    ∧ (∀ (num : String → Int) (data : List BinRaw),
      (binanceParseRows num data).length = data.length) := by
  constructor
  · intro sinceTs stream r hr
    rw [okx2Collect_eq_new] at hr
    have hk := okx2New_keep sinceTs stream [] r hr
    exact (okx2Keep_true.mp hk).1
  · intro num data
    exact List.length_map _ _

/-- A confirmed row used to witness the C8 filter theorem. -/
def rowW : OkxRow := ⟨1800000, "3100", "3101", "3099", "3100.5", "7", "0", "0", "1"⟩

/-- Witness for C8 amended: the confirm-filter theorem applied at a
concrete one-row stream, and the parse-length conjunct at a concrete
one-row Binance page. -/
theorem C8_amended_confirm_filter_witness :
    (rowW ∈ okx2Collect 0 [rowW] ∧ OkxRow.confirm rowW = "1")
    ∧ (binanceParseRows (fun _ => 0) [⟨0, "1", "2", "3", "4", "5"⟩]).length = 1 :=
  ⟨⟨by decide, C8_amended_confirm_filter.1 0 [rowW] rowW (by decide)⟩,
   C8_amended_confirm_filter.2 (fun _ => 0) [⟨0, "1", "2", "3", "4", "5"⟩]⟩

/-- A file-system operation issued by an exporter; CSV text content is
abstracted to the row list it serializes. -/
inductive FsOp (α : Type) where
  | write (path : String) (content : α)
  | rename (src dst : String)
deriving DecidableEq

/-- `OUT_CSV = 'okx_eth_15m.csv'` (`export_eth_15m_multi.mjs` line 27). -/
def OUT_CSV : String := "okx_eth_15m.csv"

/-- `OUT = './okx_eth_15m.csv'` of the atomic `src/unnamed/part_009`
variant (line 159). -/
def OUT9 : String := "./okx_eth_15m.csv"

/-- `TMP = './okx_eth_15m.tmp'` of the same variant (line 160). -/
def TMP9 : String := "./okx_eth_15m.tmp"

/-- The file-system trace of `writeCSV` (`export_eth_15m_multi.mjs`
lines 102–108): a single `fs.writeFile(OUT_CSV, ...)` directly to the
canonical output path. -/
def writeCSVOps (rows : List Row) : List (FsOp (List Row)) :=
  [FsOp.write OUT_CSV rows]

/-- The file-system trace of the atomic write of `src/unnamed/part_009`
(lines 287–293): `fs.writeFile(TMP, csv)` followed by
`fs.rename(TMP, OUT)`. -/
def atomicWriteOps {α : Type} (content : α) : List (FsOp α) :=
  [FsOp.write TMP9 content, FsOp.rename TMP9 OUT9]

/-- Effect of one operation on a file system (a map from path to
content). -/
def applyOp {α : Type} (st : String → Option α) : FsOp α → (String → Option α)
  | FsOp.write p c => fun q => if q = p then some c else st q
  | FsOp.rename src dst => fun q =>
    if q = dst then st src
    else if q = src then none
    else st q

/-- Effect of a trace, first operation first. -/
def applyOps {α : Type} (st : String → Option α) : List (FsOp α) → (String → Option α)
  | [] => st
  | op :: rest => applyOps (applyOp st op) rest

/-- C9 counterexample: `writeCSV` of `export_eth_15m_multi.mjs` does not
write to a temporary path and rename — its whole trace is one direct write
to the canonical output path. -/
theorem C9_counterexample_direct_write :
    writeCSVOps [] = [FsOp.write OUT_CSV []]
    ∧ OUT_CSV = "okx_eth_15m.csv" :=
  ⟨rfl, rfl⟩

/-- C9 amended: the `part_009` variant's CSV write is atomic — it writes
the content to the temporary path and renames it onto the canonical path;
stopping the trace before completion (any proper prefix) leaves the
canonical path's content unchanged, while the completed trace installs
exactly the new content; the trace never writes the canonical path
directly.  The other scripts (counterexample: `writeCSV`) write the
canonical path directly. -/
theorem C9_amended_atomic_write {α : Type} (content : α)
    (st : String → Option α) (k : Nat)
    (hk : k < (atomicWriteOps content).length) :
    applyOps st (List.take k (atomicWriteOps content)) OUT9 = st OUT9
    ∧ applyOps st (atomicWriteOps content) OUT9 = some content
    ∧ (∀ c : α, FsOp.write OUT9 c ∉ atomicWriteOps content) := by
  have hne : OUT9 ≠ TMP9 := by decide
  refine ⟨?_, ?_, ?_⟩
  · match k, hk with
    | 0, _ => rfl
    | 1, _ =>
      show applyOps st [FsOp.write TMP9 content] OUT9 = st OUT9
      show (if OUT9 = TMP9 then some content else st OUT9) = st OUT9
      rw [if_neg hne]
  · show applyOp (applyOp st (FsOp.write TMP9 content)) (FsOp.rename TMP9 OUT9) OUT9
      = some content
    show (if OUT9 = OUT9 then
        (if TMP9 = TMP9 then some content else st TMP9)
      else if OUT9 = TMP9 then none
      else (if OUT9 = TMP9 then some content else st OUT9)) = some content
    rw [if_pos rfl, if_pos rfl]
  · intro c hmem
    rcases List.mem_cons.mp hmem with h | h
    · injection h with h1 _
      exact hne h1
    · rcases List.mem_cons.mp h with h' | h'
      · exact FsOp.noConfusion h'
      · simp at h'

/-- Witness for C9 amended at concrete content, an empty file system, and
the one-operation proper prefix. -/
theorem C9_amended_atomic_write_witness :
    (1 < (atomicWriteOps (0 : Nat)).length)
    ∧ applyOps (fun _ => none) (List.take 1 (atomicWriteOps (0 : Nat))) OUT9 = none
    ∧ applyOps (fun _ => none) (atomicWriteOps (0 : Nat)) OUT9 = some 0 :=
  ⟨by decide,
   (C9_amended_atomic_write 0 (fun _ => none) 1 (by decide)).1,
   (C9_amended_atomic_write 0 (fun _ => none) 1 (by decide)).2.1⟩

/-- Source-level failures of the multi-exchange `main`
(`export_eth_15m_multi.mjs` lines 383–399): a throw inside the per-source
fetcher, a quality-gate rejection of the cleaned rows, or all sources
exhausted with no recorded error (`NO_SOURCE_AVAILABLE`). -/
inductive MultiErr where
  | fetchFailed
  | quality (e : QErr)
  | noSource
deriving DecidableEq, Repr

/-- The source loop of `main` (`export_eth_15m_multi.mjs` lines 381–399):
for each source attempt, a thrown error is recorded in `lastErr` and the
next source is tried; on success the raw rows are deduplicated, re-checked
by `ensureQuality`, and only then written (`Except.ok clean` models
`writeCSV(clean); return`); when the list is exhausted the last error (or
`NO_SOURCE_AVAILABLE`) is thrown. -/
def mainMultiGo (startTs endTs : Int) :
    List (Except MultiErr (List Row)) → Option MultiErr → Except MultiErr (List Row)
  | [], lastErr => Except.error (lastErr.getD MultiErr.noSource)
  | Except.error e :: rest, _ => mainMultiGo startTs endTs rest (some e)
  | Except.ok raw :: rest, _ =>
    match ensureQuality startTs endTs (dedupeSort raw) with
    | Except.error e => mainMultiGo startTs endTs rest (some (MultiErr.quality e))
    | Except.ok _ => Except.ok (dedupeSort raw)

def mainMulti (startTs endTs : Int)
    (attempts : List (Except MultiErr (List Row))) : Except MultiErr (List Row) :=
  mainMultiGo startTs endTs attempts none

/-- A source attempt fails when its fetcher threw or when the deduplicated
rows are rejected by `ensureQuality`. -/
def attemptFails (startTs endTs : Int) : Except MultiErr (List Row) → Bool
  | Except.error _ => true
  | Except.ok raw =>
    match ensureQuality startTs endTs (dedupeSort raw) with
    | Except.error _ => true
    | Except.ok _ => false

theorem mainMultiGo_ok_quality (startTs endTs : Int) :
    ∀ (attempts : List (Except MultiErr (List Row))) (lastErr : Option MultiErr)
      (rows : List Row),
      mainMultiGo startTs endTs attempts lastErr = Except.ok rows →
      ensureQuality startTs endTs rows = Except.ok () := by
  intro attempts
  induction attempts with
  | nil => intro lastErr rows h; simp [mainMultiGo] at h
  | cons a rest ih =>
    intro lastErr rows h
    cases a with
    | error e => exact ih (some e) rows h
    | ok raw =>
      rw [mainMultiGo] at h
      cases hq : ensureQuality startTs endTs (dedupeSort raw) with
      | error e =>
        rw [hq] at h
        exact ih (some (MultiErr.quality e)) rows h
      | ok u =>
        cases u
        rw [hq] at h
        have h' : (Except.ok (dedupeSort raw) : Except MultiErr (List Row))
            = Except.ok rows := h
        injection h' with h1
        rw [← h1]
        exact hq

theorem mainMultiGo_all_fail (startTs endTs : Int) :
    ∀ (attempts : List (Except MultiErr (List Row))) (lastErr : Option MultiErr),
      (∀ a ∈ attempts, attemptFails startTs endTs a = true) →
      ∃ e, mainMultiGo startTs endTs attempts lastErr = Except.error e := by
  intro attempts
  induction attempts with
  | nil => intro lastErr _; exact ⟨lastErr.getD MultiErr.noSource, rfl⟩
  | cons a rest ih =>
    intro lastErr hall
    cases a with
    | error e =>
      exact ih (some e) (fun x hx => hall x (List.mem_cons_of_mem _ hx))
    | ok raw =>
      have hfa := hall (Except.ok raw) (List.mem_cons_self _ _)
      rw [attemptFails] at hfa
      rw [mainMultiGo]
      cases hq : ensureQuality startTs endTs (dedupeSort raw) with
      | error e =>
        exact ih (some (MultiErr.quality e))
          (fun x hx => hall x (List.mem_cons_of_mem _ hx))
      | ok u =>
        rw [hq] at hfa
        simp at hfa

/-- C4 amended: in `export_eth_15m_multi.mjs` a CSV is only ever written
from a row set that passes `ensureQuality`, and when every configured
source fails (fetch error or quality rejection) the export ends in a
raised error with no CSV written.  The second `export_okx_1y.mjs` variant,
by contrast, writes the CSV and exits 0 even when the collected rows fall
short of its own `EXPECT_MIN` check (counterexample). -/
theorem C4_amended_no_csv_from_rejected (startTs endTs : Int)
    (attempts : List (Except MultiErr (List Row))) :
    (match mainMulti startTs endTs attempts with
      | Except.ok rows => ensureQuality startTs endTs rows = Except.ok ()
      | Except.error _ => True)
    ∧ ((∀ a ∈ attempts, attemptFails startTs endTs a = true) →
      ∃ e, mainMulti startTs endTs attempts = Except.error e) := by
  constructor
  · cases hm : mainMulti startTs endTs attempts with
    | ok rows => exact mainMultiGo_ok_quality startTs endTs attempts none rows hm
    | error e => trivial
  · intro hall
    exact mainMultiGo_all_fail startTs endTs attempts none hall

/-- Witness for C4 amended: a single source returning zero rows fails the
gate, and the export then ends in an error. -/
theorem C4_amended_no_csv_from_rejected_witness :
    attemptFails 0 1 (Except.ok ([] : List Row)) = true
    ∧ (∃ e, mainMulti 0 1 [Except.ok ([] : List Row)] = Except.error e) := by
  have hd : dedupeSort [] = [] := by simp [dedupeSort, dedupeGo]
  have hq : ensureQuality 0 1 ([] : List Row) = Except.error QErr.tooFewRows := by
    rw [ensureQuality, if_pos (by decide)]
  have hfail : attemptFails 0 1 (Except.ok ([] : List Row)) = true := by
    rw [attemptFails, hd, hq]
  refine ⟨hfail, (C4_amended_no_csv_from_rejected 0 1 [Except.ok []]).2 ?_⟩
  intro a ha
  rw [List.mem_singleton] at ha
  rw [ha]
  exact hfail

/-- `EXPECT_MIN = 30000` of the second `export_okx_1y.mjs` variant
(line 137). -/
def EXPECT_MIN : Nat := 30000

/-- The tail of the second `export_okx_1y.mjs` variant's `main`
(lines 255–266): when `all.length < EXPECT_MIN` only a warning is logged;
the rows are sorted, the CSV is written regardless, and the process exits
0 (`成功/不足都 exit 0`). -/
def okx2Finalize (all : List OkxRow) : Option (List OkxRow) × Nat :=
  (some (all.mergeSort okxLe), 0)

/-- C4 counterexample: the second `export_okx_1y.mjs` variant, given a
collected row set far below its `EXPECT_MIN` quality threshold (here: no
rows at all), still writes a CSV and terminates with exit code 0. -/
theorem C4_counterexample_short_csv_written :
    okx2Finalize [] = (some [], 0)
    ∧ List.length ([] : List OkxRow) < EXPECT_MIN := by
  constructor
  · rw [okx2Finalize]
    simp
  · decide

/-- Source-level failures of the per-exchange fetch loops of
`export_eth_15m_multi.mjs`: `STALLED_EMPTY` (line 150), `CURSOR_STALLED`
(line 161).  `outOfFuel` is the model's marker for exhausting the
recursion fuel; the theorems always supply enough fuel. -/
inductive BinErr where
  | stalledEmpty
  | cursorStalled
  | outOfFuel
deriving DecidableEq, Repr

/-- The cursor-monotonicity test `lastTs > prevLastTs` of
`export_eth_15m_multi.mjs` line 161, with `prevLastTs = -Infinity`
modelled by `none`. -/
def cursorAdvanced : Option Int → Int → Bool
  | none, _ => true
  | some p, lastTs => p < lastTs

/-- The loop state of `fetchFromBinance` (`export_eth_15m_multi.mjs`
lines 136–142), plus a request counter for the page fetches issued. -/
structure BinSt where
  start : Int
  emptyStreak : Nat
  prevLastTs : Option Int
  rows : List Row
  requests : Nat
deriving DecidableEq, Repr

/-- The `while (start < END_TS)` loop of `fetchFromBinance`
(`export_eth_15m_multi.mjs` lines 143–167): fetch the page for
`[start, min(start + BATCH_LIMIT·INTERVAL − 1, END_TS)]`; an empty page
bumps the empty streak (throwing `STALLED_EMPTY` at the limit) and moves
`start` past the sub-window; a non-empty page is parsed and appended, the
cursor-monotonicity check throws `CURSOR_STALLED` unless the page's last
timestamp strictly exceeds the previous one, and `start` becomes
`lastTs + INTERVAL_MS`.  The recursion is driven by explicit fuel; the
Bybit/KuCoin/Gate loops have the same structure. -/
def binanceLoop (adapter : Int → Int → List BinRaw) (num : String → Int)
    (endTs : Int) : Nat → BinSt → Except BinErr (Nat × List Row)
  | 0, st =>
    if st.start < endTs then Except.error BinErr.outOfFuel
    else Except.ok (st.requests, st.rows)
  | fuel + 1, st =>
    if st.start < endTs then
      match adapter st.start (min (st.start + BATCH_LIMIT * INTERVAL_MS - 1) endTs) with
      | [] =>
        if EMPTY_STREAK_LIMIT ≤ st.emptyStreak + 1 then
          Except.error BinErr.stalledEmpty
        else
          binanceLoop adapter num endTs fuel
            { start := min (st.start + BATCH_LIMIT * INTERVAL_MS - 1) endTs + 1,
              emptyStreak := st.emptyStreak + 1,
              prevLastTs := st.prevLastTs,
              rows := st.rows,
              requests := st.requests + 1 }
      | d :: ds =>
        if cursorAdvanced st.prevLastTs ((d :: ds).getLast (List.cons_ne_nil d ds)).openTime then
          binanceLoop adapter num endTs fuel
            { start := ((d :: ds).getLast (List.cons_ne_nil d ds)).openTime + INTERVAL_MS,
              emptyStreak := 0,
              prevLastTs := some ((d :: ds).getLast (List.cons_ne_nil d ds)).openTime,
              rows := st.rows ++ binanceParseRows num (d :: ds),
              requests := st.requests + 1 }
        else Except.error BinErr.cursorStalled
    else Except.ok (st.requests, st.rows)

/-- The page-request count of a completed `fetchFromBinance` run (`none`
when the run threw or ran out of model fuel). -/
def binanceRequests (adapter : Int → Int → List BinRaw) (num : String → Int)
    (endTs : Int) (fuel : Nat) (st : BinSt) : Option Nat :=
  match binanceLoop adapter num endTs fuel st with
  | Except.ok (req, _) => some req
  | Except.error _ => none

/-- A conforming but minimal adapter: every requested sub-window yields
exactly one bar, opening at the window start. -/
def oneBarAdapter : Int → Int → List BinRaw :=
  fun s _ => [⟨s, "0", "0", "0", "0", "0"⟩]

set_option maxRecDepth 8000 in
set_option maxHeartbeats 1000000 in
theorem binanceLoop_oneBar (num : String → Int) :
    ∀ (n : Nat) (start : Int) (es : Nat) (prev : Option Int) (rows : List Row)
      (req : Nat),
      (∀ p, prev = some p → p < start) →
      ∃ rows', binanceLoop oneBarAdapter num (start + (n : Int) * INTERVAL_MS)
          (n + 1) ⟨start, es, prev, rows, req⟩ = Except.ok (req + n, rows') := by
  have hINT : (0 : Int) < INTERVAL_MS := by decide
  intro n
  induction n with
  | zero =>
    intro start es prev rows req _
    refine ⟨rows, ?_⟩
    rw [binanceLoop]
    rw [if_neg (by push_cast; omega)]
    rfl
  | succ n ih =>
    intro start es prev rows req hprev
    have hone : (1 : Int) ≤ ((n + 1 : Nat) : Int) := by
      push_cast
      omega
    have hlt : start < start + ((n + 1 : Nat) : Int) * INTERVAL_MS := by
      have hm : 1 * INTERVAL_MS ≤ ((n + 1 : Nat) : Int) * INTERVAL_MS :=
        mul_le_mul_of_nonneg_right hone (le_of_lt hINT)
      rw [one_mul] at hm
      omega
    have hnext : ∀ p, (some start : Option Int) = some p →
        p < start + INTERVAL_MS := by
      intro p hp
      have hp2 := Option.some.inj hp
      omega
    obtain ⟨rows', hrec⟩ := ih (start + INTERVAL_MS) 0 (some start)
      (rows ++ binanceParseRows num [⟨start, "0", "0", "0", "0", "0"⟩]) (req + 1)
      hnext
    rw [binanceLoop, if_pos hlt]
    refine ⟨rows', ?_⟩
    show (if cursorAdvanced prev start = true then
        binanceLoop oneBarAdapter num (start + ((n + 1 : Nat) : Int) * INTERVAL_MS)
          (n + 1)
          { start := start + INTERVAL_MS, emptyStreak := 0,
            prevLastTs := some start,
            rows := rows ++ binanceParseRows num [⟨start, "0", "0", "0", "0", "0"⟩],
            requests := req + 1 }
      else Except.error BinErr.cursorStalled)
      = Except.ok (req + (n + 1), rows')
    have hadv : cursorAdvanced prev start = true := by
      cases prev with
      | none => rfl
      | some p =>
        have := hprev p rfl
        simp [cursorAdvanced, this]
    rw [if_pos hadv]
    have harith : start + ((n + 1 : Nat) : Int) * INTERVAL_MS
        = (start + INTERVAL_MS) + ((n : Nat) : Int) * INTERVAL_MS := by
      push_cast
      ring
    rw [harith, hrec]
    have hfin : req + 1 + n = req + (n + 1) := by omega
    rw [hfin]

/-- `MAX_PAGES = 2000` of the second and third `export_okx_1y.mjs`
variants (lines 138, 279). -/
def MAX_PAGES : Nat := 2000

/-- The `while (page < MAX_PAGES)` loop of the second `export_okx_1y.mjs`
variant (lines 215–253), recursing on the remaining page budget
(`MAX_PAGES − page`): fetch a page via `pullPage` (a throw propagates out
of `main`), stop on an empty page, merge the reversed page through the
`seen`-set push, move the cursor to the page's oldest timestamp, and stop
once that timestamp crosses `sinceTs`.  The first component counts the
page requests issued. -/
def okx2Loop (sinceTs : Int)
    (adapter : Nat → Option Int → Except NetErr (List OkxRow)) :
    Nat → Nat → Option Int → Okx2St → Nat → Nat × Except NetErr (List OkxRow)
  | 0, _, _, st, req => (req, Except.ok st.all)
  | fuel + 1, page, before, st, req =>
    match adapter (page + 1) before with
    | Except.error e => (req + 1, Except.error e)
    | Except.ok [] => (req + 1, Except.ok st.all)
    | Except.ok (d :: ds) =>
      if ((d :: ds).reverse.headD d).ts ≤ sinceTs then
        (req + 1, Except.ok ((d :: ds).reverse.foldl (okx2Push sinceTs) st).all)
      else
        okx2Loop sinceTs adapter fuel (page + 1)
          (some ((d :: ds).reverse.headD d).ts)
          ((d :: ds).reverse.foldl (okx2Push sinceTs) st) (req + 1)

/-- The full pager run of that variant: `page = 0`, no cursor, empty
state. -/
def okx2Run (sinceTs : Int)
    (adapter : Nat → Option Int → Except NetErr (List OkxRow)) :
    Nat × Except NetErr (List OkxRow) :=
  okx2Loop sinceTs adapter MAX_PAGES 0 none ⟨[], []⟩ 0

theorem okx2Loop_requests_le (sinceTs : Int)
    (adapter : Nat → Option Int → Except NetErr (List OkxRow)) :
    ∀ (fuel page : Nat) (before : Option Int) (st : Okx2St) (req : Nat),
      (okx2Loop sinceTs adapter fuel page before st req).1 ≤ req + fuel := by
  intro fuel
  induction fuel with
  | zero => intro page before st req; simp [okx2Loop]
  | succ fuel ih =>
    intro page before st req
    rw [okx2Loop]
    cases adapter (page + 1) before with
    | error e => simp
    | ok data =>
      cases data with
      | nil => simp
      | cons d ds =>
        dsimp only
        by_cases hb : ((d :: ds).reverse.headD d).ts ≤ sinceTs
        · rw [if_pos hb]
          simp
        · rw [if_neg hb]
          have := ih (page + 1) (some ((d :: ds).reverse.headD d).ts)
            ((d :: ds).reverse.foldl (okx2Push sinceTs) st) (req + 1)
          omega

/-- C6 amended (provable part): the `while (page < MAX_PAGES)` pager of
`export_okx_1y.mjs` issues at most `MAX_PAGES = 2000` page requests for
every adapter behaviour and every window — a bound independent of the
window size. -/
theorem C6_amended_okx_pager_page_bound (sinceTs : Int)
    (adapter : Nat → Option Int → Except NetErr (List OkxRow)) :
    (okx2Run sinceTs adapter).1 ≤ MAX_PAGES := by
  have := okx2Loop_requests_le sinceTs adapter MAX_PAGES 0 none ⟨[], []⟩ 0
  simpa using this

/-- C6 counterexample: the `fetchFromBinance` loop of
`export_eth_15m_multi.mjs` has no maximum page count.  With a conforming
adapter that returns one bar per requested sub-window, the loop for the
one-year window (`ONE_YEAR_MS = 35040 · INTERVAL_MS`) completes normally
after exactly 35040 page requests — more than any page cap appearing in
the repository (5000, 2000, 1200, 600), and scaling linearly with the
window instead of being bounded independently of it. -/
theorem C6_counterexample_binance_no_page_cap :
    binanceRequests oneBarAdapter (fun _ => 0) ((0 : Int) + (35040 : Nat) * INTERVAL_MS)
        (35040 + 1) ⟨0, 0, none, [], 0⟩ = some (0 + 35040)
    ∧ ONE_YEAR_MS = (35040 : Nat) * INTERVAL_MS
    ∧ 5000 < 35040 := by
  refine ⟨?_, by decide, by decide⟩
  obtain ⟨rows', h⟩ := binanceLoop_oneBar (fun _ => 0) 35040 0 0 none [] 0
    (fun p hp => Option.noConfusion hp)
  rw [binanceRequests, h]

/-- C5 amended (provable part): when a non-empty page's last timestamp
fails the strict-advance test `lastTs > prevLastTs`, the
`fetchFromBinance` loop throws `CURSOR_STALLED` in that very iteration —
it performs no further page request against the stalled source (the
Bybit/KuCoin/Gate loops are line-identical). -/
theorem C5_amended_binance_stall_stops_immediately
    (adapter : Int → Int → List BinRaw) (num : String → Int) (endTs : Int)
    (fuel : Nat) (st : BinSt) (hrun : st.start < endTs)
    (d : BinRaw) (ds : List BinRaw)
    (hdata : adapter st.start (min (st.start + BATCH_LIMIT * INTERVAL_MS - 1) endTs)
      = d :: ds)
    (hstall : cursorAdvanced st.prevLastTs
      ((d :: ds).getLast (List.cons_ne_nil d ds)).openTime = false) :
    binanceLoop adapter num endTs (fuel + 1) st
      = Except.error BinErr.cursorStalled := by
  rw [binanceLoop, if_pos hrun, hdata]
  dsimp only
  rw [if_neg (by simp [hstall])]

/-- An adapter whose page always ends at timestamp 3, behind the cursor. -/
def stallBinAdapter : Int → Int → List BinRaw :=
  fun _ _ => [⟨3, "0", "0", "0", "0", "0"⟩]

/-- Witness for C5 amended: a stalled page (last timestamp 3, previous
cursor 5) makes the loop throw `CURSOR_STALLED` at once. -/
theorem C5_amended_binance_stall_stops_immediately_witness :
    ((⟨0, 0, some 5, [], 0⟩ : BinSt).start < (1000000 : Int))
    ∧ binanceLoop stallBinAdapter (fun _ => 0) 1000000 8 ⟨0, 0, some 5, [], 0⟩
        = Except.error BinErr.cursorStalled :=
  ⟨by decide,
   C5_amended_binance_stall_stops_immediately stallBinAdapter (fun _ => 0)
     1000000 7 ⟨0, 0, some 5, [], 0⟩ (by decide) ⟨3, "0", "0", "0", "0", "0"⟩ []
     rfl (by decide)⟩

/-- The row-push of the third `export_okx_1y.mjs` variant (lines 339–355):
drop unconfirmed rows, deduplicate by `seenTs`; there is no window filter
in this variant. -/
def okx3Push (st : Okx2St) (c : OkxRow) : Okx2St :=
  if c.confirm ≠ "1" then st
  else if c.ts ∈ st.seen then st
  else ⟨c.ts :: st.seen, st.all ++ [c]⟩

/-- The `while (page < MAX_PAGES)` loop of the third `export_okx_1y.mjs`
variant (lines 328–370): `getJson` never throws (it yields `[]` on
failure); an empty page stops; otherwise the page is merged and the cursor
update at lines 361–367 runs — when the page's oldest timestamp is falsy
or fails to advance (`oldest >= before`) the loop does NOT stop: it
retreats the cursor by one minute (`before - 60000`) and keeps going. -/
def okx3Loop (adapter : Nat → Int → List OkxRow) :
    Nat → Nat → Int → Okx2St → Nat → Nat × List OkxRow
  | 0, _, _, st, req => (req, st.all)
  | fuel + 1, page, before, st, req =>
    match adapter (page + 1) before with
    | [] => (req + 1, st.all)
    | d :: ds =>
      okx3Loop adapter fuel (page + 1)
        (if ((d :: ds).getLast (List.cons_ne_nil d ds)).ts = 0
            ∨ before ≤ ((d :: ds).getLast (List.cons_ne_nil d ds)).ts
          then before - 60000
          else ((d :: ds).getLast (List.cons_ne_nil d ds)).ts)
        ((d :: ds).reverse.foldl okx3Push st) (req + 1)

/-- The full pager run of the third variant, starting from
`before = Date.now()`. -/
def okx3Run (adapter : Nat → Int → List OkxRow) (startBefore : Int) :
    Nat × List OkxRow :=
  okx3Loop adapter MAX_PAGES 0 startBefore ⟨[], []⟩ 0

/-- A confirmed row whose timestamp never advances past the cursor. -/
def stallRow : OkxRow :=
  ⟨1700000000000, "3000", "3000", "3000", "3000", "1", "0", "0", "1"⟩

/-- An adapter that repeats the same one-row page forever — a permanently
stalled source. -/
def stallOkxAdapter : Nat → Int → List OkxRow := fun _ _ => [stallRow]

theorem okx3Loop_stall_count :
    ∀ (fuel page : Nat) (before : Int) (st : Okx2St) (req : Nat),
      before ≤ stallRow.ts →
      (okx3Loop stallOkxAdapter fuel page before st req).1 = req + fuel := by
  intro fuel
  induction fuel with
  | zero => intro page before st req _; simp [okx3Loop]
  | succ fuel ih =>
    intro page before st req hb
    rw [okx3Loop]
    show (okx3Loop stallOkxAdapter fuel (page + 1)
        (if stallRow.ts = 0 ∨ before ≤ stallRow.ts
          then before - 60000 else stallRow.ts)
        ([stallRow].reverse.foldl okx3Push st) (req + 1)).1 = req + (fuel + 1)
    rw [if_pos (Or.inr hb)]
    have := ih (page + 1) (before - 60000) ([stallRow].reverse.foldl okx3Push st)
      (req + 1) (by omega)
    omega

/-- C5 counterexample: against a permanently stalled source (the same page
with the same oldest timestamp every time, cursor never advancing), the
third `export_okx_1y.mjs` variant does not stop within one extra
iteration: starting at `before = 1700000000000` it performs all
`MAX_PAGES = 2000` page requests, retreating the cursor by one minute each
time. -/
theorem C5_counterexample_okx3_retreat_keeps_looping :
    (okx3Run stallOkxAdapter 1700000000000).1 = 2000 ∧ 2 < 2000 := by
  refine ⟨?_, by decide⟩
  have h := okx3Loop_stall_count MAX_PAGES 0 1700000000000 ⟨[], []⟩ 0 (by decide)
  rw [okx3Run, h]
  decide

end Eth15m
